import Mathlib

/-!
Shallow embedding of the branchpro core (models.py, posterior.py, simulation.py)
from the SABS-R3-Epidemiology/branching-process repository.

Numeric values are modelled by `ℚ`; numpy 1-D arrays by `List ℚ`.  Python/numpy
slice semantics (`a[i:j]` clamps out-of-range bounds, `a[-t:]` takes the last
`t` elements, `a[-0:]` is the whole array) are captured by `npSlice` and
`negTail` below.  `np.sum(a * b)` of two equal-length arrays is `npDot`.
Random draws (`np.random.poisson`) are modelled by an explicit oracle
`draw : ℕ → ℚ → ℚ` giving the sampled value for a day and its Poisson mean;
`np.random.poisson(lam=mean)` raises `ValueError` when the computed mean is
negative, so the incidence builder fails there and consults the oracle only
for valid (nonnegative) means.  Raising an exception is modelled by
`Except String`.
-/

/-- Python slice `l[a:b]` for `0 ≤ a ≤ b` (out-of-range bounds clamp). -/
def npSlice (l : List ℚ) (a b : ℕ) : List ℚ := (l.take b).drop a

/-- Python slice `l[-t:]`: the last `t` elements; for `t = 0` (`l[-0:]` = `l[0:]`)
the whole list, matching numpy. -/
def negTail (l : List ℚ) (t : ℕ) : List ℚ :=
  if t = 0 then l else l.drop (l.length - t)

/-- `np.sum(a * b)` for two aligned 1-D arrays.  In every use below the two
lists have equal length (numpy would raise on a genuine mismatch). -/
def npDot (a b : List ℚ) : ℚ := (List.zipWith (· * ·) a b).sum

/-- Python `range(a, b)` over integers, as a list. -/
def intRange (a b : ℤ) : List ℤ := (List.range (b - a).toNat).map (fun (i : ℕ) => a + (i : ℤ))

/-- `np.rint`: round to nearest integer, halves to even. -/
def rint (q : ℚ) : ℤ :=
  let fl := ⌊q⌋
  let fr := q - (fl : ℚ)
  if fr < 1/2 then fl
  else if 1/2 < fr then fl + 1
  else if fl % 2 = 0 then fl else fl + 1

/-- `np.linspace(a, b, num = n)` with the default `endpoint = True`. -/
def linspace (a b : ℚ) (n : ℕ) : List ℚ :=
  if n ≤ 1 then (List.range n).map (fun _ => a)
  else (List.range n).map (fun i => a + (b - a) * (i : ℚ) / ((n : ℚ) - 1))

/-- `BranchProModel` state after `__init__`: the serial interval is stored
reversed (`np.asarray(serial_interval)[::-1]`) and the normalizing constant is
the sum of the stored (reversed) array. -/
structure BranchProModel where
  initial_r : ℚ
  serial_interval : List ℚ
  normalizing_const : ℚ
deriving DecidableEq

/-- `BranchProModel.__init__` on an already-validated serial interval list:
stores the reversed serial interval and its sum. -/
def BranchProModel.ofData (r : ℚ) (si : List ℚ) : BranchProModel :=
  { initial_r := r
    serial_interval := si.reverse
    normalizing_const := si.reverse.sum }

/-- `BranchProModel.__init__` with its validation: raises
`ValueError` when the serial interval sums to `≤ 0` (the `isinstance` checks
are subsumed by the Lean types). -/
def BranchProModel.create (r : ℚ) (si : List ℚ) : Except String BranchProModel :=
  if si.sum ≤ 0 then Except.error "Sum of serial interval values must be > 0"
  else Except.ok (BranchProModel.ofData r si)

/-- `BranchProModel._normalised_daily_mean(t, incidences)`.  The stored
`serial_interval` field is the reversed raw serial interval, exactly as in the
source. -/
def BranchProModel.normalised_daily_mean (m : BranchProModel) (t : ℕ)
    (incidences : List ℚ) : ℚ :=
  if t > m.serial_interval.length then
    m.initial_r *
      (npDot (npSlice incidences (t - m.serial_interval.length) t) m.serial_interval /
        m.normalizing_const)
  else
    m.initial_r *
      (npDot (npSlice incidences 0 t) (negTail m.serial_interval t) /
        m.normalizing_const)

/-- The incidence array built by `simulate`'s loop, with entries `0 .. T`:
entry `0` is the initial condition, and entry `t` is the Poisson draw
`np.random.poisson(lam=_normalised_daily_mean(t, incidences))` (which only
ever reads entries `< t`).  `np.random.poisson` raises `ValueError` when its
mean is negative (possible for a negative reproduction number or
negative serial-interval weights), so the builder fails there; for a
nonnegative mean the oracle `draw` supplies the sampled value. -/
def BranchProModel.incidencesE (m : BranchProModel) (draw : ℕ → ℚ → ℚ)
    (initial_cond : ℚ) : ℕ → Except String (List ℚ)
  | 0 => Except.ok [initial_cond]
  | t + 1 =>
      match BranchProModel.incidencesE m draw initial_cond t with
      | Except.error e => Except.error e
      | Except.ok prev =>
          if m.normalised_daily_mean (t + 1) prev < 0 then
            Except.error "lam value too large or lam < 0"
          else
            Except.ok (prev ++ [draw (t + 1) (m.normalised_daily_mean (t + 1) prev)])

/-- `BranchProModel.simulate(parameters, times)`.  `np.max` of an empty list
raises; a negative `last_time_point` makes `incidences[0] = initial_cond`
raise an `IndexError` (array of size `≤ 0`); a negative daily mean makes the
Poisson draw raise inside the loop.  Otherwise the filled incidence array is
returned at the requested times
(`mask = np.in1d(np.append(0, simulation_times), times)`). -/
def BranchProModel.simulateE (m : BranchProModel) (draw : ℕ → ℚ → ℚ)
    (parameters : ℚ) (times : List ℤ) : Except String (List ℚ) :=
  match times.max? with
  | none => Except.error "zero-size array to reduction operation maximum"
  | some last_time_point =>
      if last_time_point < 0 then
        Except.error "index 0 is out of bounds"
      else
        match m.incidencesE draw parameters last_time_point.toNat with
        | Except.error e => Except.error e
        | Except.ok inc =>
            Except.ok
              (((List.range (last_time_point.toNat + 1)).filter
                  (fun (t : ℕ) => decide ((t : ℤ) ∈ times))).map
                (fun (t : ℕ) => inc.getD t 0))

/-- `BranchProPosterior` state after `__init__`.  The incidence data has been
padded over the contiguous range `[t_min, t_max]` (`reindex(range(min, max+1)).fillna(0)`),
so `cases_data` lists the counts at times `t_min, t_min + 1, ...` and
`cases_times.max() = t_min + cases_data.length - 1`.  As in the source, the
serial interval is stored reversed and `normalizing_const` is the sum of the
stored array. -/
structure BranchProPosterior where
  t_min : ℤ
  cases_data : List ℚ
  serial_interval : List ℚ
  normalizing_const : ℚ
  alpha : ℚ
  beta : ℚ
deriving DecidableEq

/-- `BranchProPosterior.__init__` on already-padded incidence data starting at
time `t0` (the raw serial interval `si` gets reversed and summed). -/
def mkBranchProPosterior (t0 : ℤ) (cases si : List ℚ) (a b : ℚ) :
    BranchProPosterior :=
  { t_min := t0
    cases_data := cases
    serial_interval := si.reverse
    normalizing_const := si.reverse.sum
    alpha := a
    beta := b }

/-- `self.cases_times.max()`: the padded times are contiguous from `t_min`. -/
def BranchProPosterior.t_max (p : BranchProPosterior) : ℤ :=
  p.t_min + p.cases_data.length - 1

/-- `BranchProPosterior.get_serial_intervals`: reverses the stored inversion. -/
def BranchProPosterior.get_serial_intervals (p : BranchProPosterior) : List ℚ :=
  p.serial_interval.reverse

/-- `BranchProPosterior.set_serial_intervals`: a `List ℚ` is always 1-D, so the
`ndim` validation passes; the new serial interval is stored reversed and the
normalizing constant recomputed. -/
def BranchProPosterior.set_serial_intervals (p : BranchProPosterior)
    (serial_intervals : List ℚ) : BranchProPosterior :=
  { p with
    serial_interval := serial_intervals.reverse
    normalizing_const := serial_intervals.reverse.sum }

/-- `BranchProPosterior._infectious_individuals(cases_data, t)`. -/
def BranchProPosterior.infectious_individuals (p : BranchProPosterior)
    (cases_data : List ℚ) (t : ℕ) : ℚ :=
  if t > p.serial_interval.length then
    npDot (npSlice cases_data (t - p.serial_interval.length - 1) (t - 1))
        p.serial_interval /
      p.normalizing_const
  else
    npDot (npSlice cases_data 0 (t - 1)) (negTail p.serial_interval (t - 1)) /
      p.normalizing_const

/-- `BranchProPosterior._infectives_in_tau(cases_data, start, end)`:
sums `_infectious_individuals` over `range(start, end)`. -/
def BranchProPosterior.infectives_in_tau (p : BranchProPosterior)
    (cases_data : List ℚ) (s e : ℕ) : ℚ :=
  ((List.range' s (e - s)).map (fun time => p.infectious_individuals cases_data time)).sum

/-- The state written by `run_inference`: `inference_times`,
the per-time posterior parameters (`shape`, `rate`) and
`inference_estimates = np.divide(shape, rate)`.  The scipy Gamma posterior
object is determined by `shape` and `rate`. -/
structure InferenceResult where
  inference_times : List ℤ
  shape : List ℚ
  rate : List ℚ
  mean : List ℚ
deriving DecidableEq

/-- `BranchProPosterior.run_inference(tau)`.  `total_time` is
`cases_times.max() - cases_times.min() + 1`, the loop runs over
`range(tau + 2, total_time + 1)`, with window `[time - tau, time + 1)` and the
shape slice `cases_data[(start_window - 1):(end_window - 1)]`; the reported
times are `range(t_min + 1 + tau, t_max + 1)`. -/
def BranchProPosterior.run_inference (p : BranchProPosterior) (tau : ℕ) :
    InferenceResult :=
  let total_time := (p.t_max - p.t_min + 1).toNat
  let time_init_inf_r := tau + 1
  let loop_times := List.range' (time_init_inf_r + 1) (total_time - time_init_inf_r)
  let shape := loop_times.map (fun time =>
    p.alpha + (npSlice p.cases_data (time - tau - 1) (time + 1 - 1)).sum)
  let rate := loop_times.map (fun time =>
    p.beta + p.infectives_in_tau p.cases_data (time - tau) (time + 1))
  { inference_times := intRange (p.t_min + 1 + tau) (p.t_max + 1)
    shape := shape
    rate := rate
    mean := List.zipWith (fun s r => s / r) shape rate }

/-- `LocImpBranchProPosterior` state after `__init__`: the base fields plus the
imported incidence data (padded over the local series' time range, hence the
same length as `cases_data`) and the proportionality constant `epsilon`
(already validated `≥ -1` by `set_epsilon`). -/
structure LocImpBranchProPosterior extends BranchProPosterior where
  imp_cases_data : List ℚ
  epsilon : ℚ
deriving DecidableEq

/-- `LocImpBranchProPosterior.run_inference(tau)`: identical to the base
version except that the rate adds `(1 + epsilon)` times the imported-series
window term. -/
def LocImpBranchProPosterior.run_inference (q : LocImpBranchProPosterior)
    (tau : ℕ) : InferenceResult :=
  let p := q.toBranchProPosterior
  let total_time := (p.t_max - p.t_min + 1).toNat
  let time_init_inf_r := tau + 1
  let loop_times := List.range' (time_init_inf_r + 1) (total_time - time_init_inf_r)
  let shape := loop_times.map (fun time =>
    p.alpha + (npSlice p.cases_data (time - tau - 1) (time + 1 - 1)).sum)
  let rate := loop_times.map (fun time =>
    p.beta + p.infectives_in_tau p.cases_data (time - tau) (time + 1) +
      (1 + q.epsilon) * p.infectives_in_tau q.imp_cases_data (time - tau) (time + 1))
  { inference_times := intRange (p.t_min + 1 + tau) (p.t_max + 1)
    shape := shape
    rate := rate
    mean := List.zipWith (fun s r => s / r) shape rate }

/-- `SimulationController` state: the wrapped model, the fixed
`_sim_end_points` pair and the current `_regime`. -/
structure SimulationController where
  model : BranchProModel
  sim_end_points : ℤ × ℤ
  regime : List ℤ

/-- `SimulationController.__init__`: fixes the end points and sets the default
regime `np.arange(start, end + 1)`. -/
def mkSimulationController (model : BranchProModel) (start_sim_time end_sim_time : ℤ) :
    SimulationController :=
  { model := model
    sim_end_points := (start_sim_time, end_sim_time)
    regime := intRange start_sim_time (end_sim_time + 1) }

/-- `SimulationController.switch_resolution(num_points)`: only reassigns
`_regime`, to `np.rint(np.linspace(start, end, num=num_points))`. -/
def SimulationController.switch_resolution (c : SimulationController)
    (num_points : ℕ) : SimulationController :=
  { c with
    regime := (linspace (c.sim_end_points.1 : ℚ) (c.sim_end_points.2 : ℚ) num_points).map rint }

/-- `SimulationController.get_regime`. -/
def SimulationController.get_regime (c : SimulationController) : List ℤ := c.regime

/-- `SimulationController.get_time_bounds`. -/
def SimulationController.get_time_bounds (c : SimulationController) : ℤ × ℤ :=
  c.sim_end_points

/-- `SimulationController.run(parameters)`: calls `model.simulate` on the
current regime and assigns no attribute, so the controller state is returned
unchanged.  (In the source `_regime` is an ndarray, which
`simulate`'s `isinstance(times, list)` check rejects with a `TypeError`;
either way no attribute is assigned, and the state component below is what
matters for the frame property.) -/
def SimulationController.run (c : SimulationController) (draw : ℕ → ℚ → ℚ)
    (parameters : ℚ) : Except String (List ℚ) × SimulationController :=
  (c.model.simulateE draw parameters c.regime, c)

/-- A call made to a `SimulationController` after construction. -/
inductive ControllerOp where
  | switch (num_points : ℕ)
  | runOp (draw : ℕ → ℚ → ℚ) (parameters : ℚ)

/-- Applies one call to the controller state. -/
def execOp (c : SimulationController) : ControllerOp → SimulationController
  | ControllerOp.switch n => c.switch_resolution n
  | ControllerOp.runOp draw parameters => (c.run draw parameters).2

/-- Applies a sequence of calls to the controller state. -/
def execOps (c : SimulationController) (ops : List ControllerOp) :
    SimulationController :=
  ops.foldl execOp c

/-- `scipy.stats.gamma(shape, scale=1/rate).ppf(q)`: the quantile (generalized
inverse CDF) of the Gamma distribution with shape `a` and rate `r`, embedded as
the infimum of the upper level set of the Gamma CDF. -/
noncomputable def gammaQuantile (a r q : ℝ) : ℝ :=
  sInf {x : ℝ | q ≤ ProbabilityTheory.gammaCDFReal a r x}

/-- `BranchProPosterior.get_intervals(central_prob)` applied to the state left
by `run_inference`: one row per inference time, with columns
(`Time Points`, `Mean`, `Lower bound CI`, `Upper bound CI`), where the bounds
are `scipy.stats.gamma(shape, scale=1/rate).interval(central_prob)`, i.e. the
equal-tailed quantiles at `(1 - p)/2` and `(1 + p)/2`. -/
noncomputable def InferenceResult.get_intervals (res : InferenceResult)
    (central_prob : ℝ) : List (ℤ × ℝ × ℝ × ℝ) :=
  List.zipWith
    (fun (t : ℤ) (sr : ℚ × ℚ) =>
      (t, (sr.1 : ℝ) / (sr.2 : ℝ),
        gammaQuantile (sr.1 : ℝ) (sr.2 : ℝ) ((1 - central_prob) / 2),
        gammaQuantile (sr.1 : ℝ) (sr.2 : ℝ) ((1 + central_prob) / 2)))
    res.inference_times (res.shape.zip res.rate)

/-- Concrete model for claim C1: `initial_r = 1`, `serial_interval = [1, 2]`. -/
def cexModelC1 : BranchProModel := BranchProModel.ofData 1 [1, 2]

/-- Concrete posterior sharing C1's serial interval `[1, 2]`. -/
def cexPosteriorC1 : BranchProPosterior := mkBranchProPosterior 0 [] [1, 2] 1 1

/-- Concrete posterior for claim C2: counts `[1, 1, 1, 1]` at times `0..3`. -/
def cexPosteriorC2 : BranchProPosterior := mkBranchProPosterior 0 [1, 1, 1, 1] [1] 1 1

/-- The incidence counts of the claim C4 scenario, at times `0..7`. -/
def casesC4 : List ℚ := [3, 1, 4, 1, 5, 9, 2, 6]

/-- The claim C4 posterior (`alpha = 1`, `beta = 0.2`) over a serial
interval `si`. -/
def posteriorC4 (si : List ℚ) : BranchProPosterior :=
  mkBranchProPosterior 0 casesC4 si 1 (1/5)

/-- A nonnegative serial interval with positive sum whose first three lags all
have weight zero. -/
def siZeroHead : List ℚ := [0, 0, 0, 0, 1]

/-- Concrete posterior for claim C6: all-zero counts at times `0..2`,
`serial_interval = [1]`, `alpha = beta = 1`, so that `run_inference(1)` gives a
single Gamma(1, 1) posterior (mean `1`). -/
def posteriorC6 : BranchProPosterior := mkBranchProPosterior 0 [0, 0, 0] [1] 1 1

/-- Concrete model for claims C7/C8. -/
def modelC8 : BranchProModel := BranchProModel.ofData 1 [1]

/-- A degenerate Poisson-draw oracle returning `0` for every mean. -/
def drawZero : ℕ → ℚ → ℚ := fun _ _ => 0

/-- An unordered times list with a duplicate and a negative entry. -/
def badTimes : List ℤ := [2, 1, 2, -3]

/-- Concrete local/imported posterior for the C5 witness. -/
def locImpC5 : LocImpBranchProPosterior :=
  { toBranchProPosterior := cexPosteriorC2, imp_cases_data := [0, 0, 0, 0], epsilon := 0 }

/- ------------------------------------------------------------------ -/
/- Helper lemmas about the numpy-style primitives.                     -/
/- ------------------------------------------------------------------ -/

theorem mem_npSlice {l : List ℚ} {a b : ℕ} {x : ℚ} (h : x ∈ npSlice l a b) : x ∈ l :=
  List.mem_of_mem_take (List.mem_of_mem_drop h)

theorem mem_negTail {l : List ℚ} {t : ℕ} {x : ℚ} (h : x ∈ negTail l t) : x ∈ l := by
  unfold negTail at h
  split at h
  · exact h
  · exact List.mem_of_mem_drop h

theorem negTail_length_self (l : List ℚ) : negTail l l.length = l := by
  unfold negTail
  split
  · rfl
  · simp

theorem npDot_nonneg (a b : List ℚ) (ha : ∀ x ∈ a, 0 ≤ x) (hb : ∀ y ∈ b, 0 ≤ y) :
    0 ≤ npDot a b := by
  induction a generalizing b with
  | nil => simp [npDot]
  | cons x xs ih =>
    cases b with
    | nil => simp [npDot]
    | cons y ys =>
      have hx : 0 ≤ x := ha x (by simp)
      have hy : 0 ≤ y := hb y (by simp)
      have ht : 0 ≤ npDot xs ys :=
        ih ys (fun z hz => ha z (by simp [hz])) (fun z hz => hb z (by simp [hz]))
      simp only [npDot, List.zipWith_cons_cons, List.sum_cons]
      exact add_nonneg (mul_nonneg hx hy) ht

theorem npDot_zero_left (a b : List ℚ) (ha : ∀ x ∈ a, x = 0) : npDot a b = 0 := by
  induction a generalizing b with
  | nil => simp [npDot]
  | cons x xs ih =>
    cases b with
    | nil => simp [npDot]
    | cons y ys =>
      have hx : x = 0 := ha x (by simp)
      have ht : npDot xs ys = 0 := ih ys (fun z hz => ha z (by simp [hz]))
      simp only [npDot, List.zipWith_cons_cons, List.sum_cons] at *
      rw [hx, ht]
      ring

theorem npDot_pos (a b : List ℚ) (ha : ∀ x ∈ a, 0 ≤ x) (hb : ∀ y ∈ b, 0 ≤ y)
    (j : ℕ) (hja : j < a.length) (hjb : j < b.length)
    (hpos : 0 < a.getD j 0 * b.getD j 0) : 0 < npDot a b := by
  induction a generalizing b j with
  | nil => simp at hja
  | cons x xs ih =>
    cases b with
    | nil => simp at hjb
    | cons y ys =>
      simp only [npDot, List.zipWith_cons_cons, List.sum_cons]
      have hx : 0 ≤ x := ha x (by simp)
      have hy : 0 ≤ y := hb y (by simp)
      have hxs : ∀ z ∈ xs, 0 ≤ z := fun z hz => ha z (by simp [hz])
      have hys : ∀ z ∈ ys, 0 ≤ z := fun z hz => hb z (by simp [hz])
      cases j with
      | zero =>
        simp only [List.getD_cons_zero] at hpos
        exact add_pos_of_pos_of_nonneg hpos (npDot_nonneg xs ys hxs hys)
      | succ k =>
        simp only [List.getD_cons_succ] at hpos
        simp only [List.length_cons, Nat.succ_lt_succ_iff] at hja hjb
        exact add_pos_of_nonneg_of_pos (mul_nonneg hx hy) (ih ys hxs hys k hja hjb hpos)

theorem intRange_mem {a b t : ℤ} : t ∈ intRange a b ↔ a ≤ t ∧ t < b := by
  simp only [intRange, List.mem_map, List.mem_range]
  constructor
  · rintro ⟨i, hi, rfl⟩
    omega
  · rintro ⟨h1, h2⟩
    exact ⟨(t - a).toNat, by omega, by omega⟩

theorem intRange_length (a b : ℤ) : (intRange a b).length = (b - a).toNat := by
  simp [intRange]

theorem infectious_individuals_nonneg (p : BranchProPosterior) (cases : List ℚ)
    (hc : ∀ x ∈ cases, 0 ≤ x) (hs : ∀ x ∈ p.serial_interval, 0 ≤ x)
    (hn : 0 ≤ p.normalizing_const) (t : ℕ) :
    0 ≤ p.infectious_individuals cases t := by
  unfold BranchProPosterior.infectious_individuals
  split
  · exact div_nonneg (npDot_nonneg _ _ (fun x hx => hc x (mem_npSlice hx)) hs) hn
  · exact div_nonneg
      (npDot_nonneg _ _ (fun x hx => hc x (mem_npSlice hx))
        (fun x hx => hs x (mem_negTail hx))) hn

theorem infectives_in_tau_nonneg (p : BranchProPosterior) (cases : List ℚ)
    (hc : ∀ x ∈ cases, 0 ≤ x) (hs : ∀ x ∈ p.serial_interval, 0 ≤ x)
    (hn : 0 ≤ p.normalizing_const) (s e : ℕ) :
    0 ≤ p.infectives_in_tau cases s e := by
  unfold BranchProPosterior.infectives_in_tau
  refine List.sum_nonneg ?_
  intro x hx
  obtain ⟨u, _, rfl⟩ := List.mem_map.mp hx
  exact infectious_individuals_nonneg p cases hc hs hn u

theorem execOps_preserves (ops : List ControllerOp) (c : SimulationController) :
    (execOps c ops).sim_end_points = c.sim_end_points ∧
      (execOps c ops).model = c.model := by
  induction ops generalizing c with
  | nil => exact ⟨rfl, rfl⟩
  | cons op ops ih =>
    have h : execOps c (op :: ops) = execOps (execOp c op) ops := rfl
    rw [h]
    cases op with
    | switch n => exact ih (execOp c (ControllerOp.switch n))
    | runOp d q => exact ih (execOp c (ControllerOp.runOp d q))

/- ------------------------------------------------------------------ -/
/- Claim theorems.                                                     -/
/- ------------------------------------------------------------------ -/

/-- C7: for every model (any reproduction number and serial interval) and
every randomness oracle, `simulate(initial_count, [0])` returns the length-1
sequence `[initial_count]`. -/
theorem simulate_time_zero_returns_initial (m : BranchProModel)
    (draw : ℕ → ℚ → ℚ) (initial_cond : ℚ) :
    m.simulateE draw initial_cond [0] = Except.ok [initial_cond] := rfl

/-- C9: `set_serial_intervals(v)` followed by `get_serial_intervals()` returns
exactly `v` (the internal reversal round-trips), and the normalizing constant
after the call is the sum of `v`. -/
theorem serial_intervals_round_trip (p : BranchProPosterior) (v : List ℚ) :
    (p.set_serial_intervals v).get_serial_intervals = v ∧
      (p.set_serial_intervals v).normalizing_const = v.sum := by
  constructor
  · simp [BranchProPosterior.set_serial_intervals, BranchProPosterior.get_serial_intervals]
  · simp [BranchProPosterior.set_serial_intervals, List.sum_reverse]

/-- C10: across every sequence of `switch_resolution` and `run` calls the time
bounds returned by `get_time_bounds` stay the pair fixed at construction (and
the wrapped model is never replaced); `switch_resolution` changes only the
regime, and `run` returns the controller state unchanged. -/
theorem controller_time_bounds_frame (model : BranchProModel) (s e : ℤ)
    (ops : List ControllerOp) (c : SimulationController) (n : ℕ)
    (draw : ℕ → ℚ → ℚ) (parameters : ℚ) :
    (execOps (mkSimulationController model s e) ops).get_time_bounds = (s, e) ∧
      (execOps (mkSimulationController model s e) ops).model = model ∧
      (c.switch_resolution n).sim_end_points = c.sim_end_points ∧
      (c.switch_resolution n).model = c.model ∧
      (c.run draw parameters).2 = c := by
  refine ⟨?_, ?_, rfl, rfl, rfl⟩
  · exact (execOps_preserves ops (mkSimulationController model s e)).1
  · exact (execOps_preserves ops (mkSimulationController model s e)).2

/-- C1 counterexample: with serial interval `[1, 2]`, `R = 1` and incidence
array `[5, 7, 11, 13]`, the posterior kernel at `t = 2` gives `5/3` while the
simulator kernel at the same `t` divided by `R` gives `17/3`. -/
theorem infectious_kernel_neq_daily_mean_cex :
    cexPosteriorC1.infectious_individuals [5, 7, 11, 13] 2 ≠
      cexModelC1.normalised_daily_mean 2 [5, 7, 11, 13] / cexModelC1.initial_r := by
  norm_num [cexPosteriorC1, cexModelC1, mkBranchProPosterior, BranchProModel.ofData,
    BranchProPosterior.infectious_individuals, BranchProModel.normalised_daily_mean,
    npDot, npSlice, negTail]

/-- C1 amended: for every incidence array and every `t ≥ 2`, the posterior
kernel `_infectious_individuals(I, t)` agrees with the simulator kernel
`_normalised_daily_mean` evaluated one day earlier (at `t - 1`, with the
reproduction number factored out), whenever the two objects hold the same
serial-interval data. -/
theorem infectious_kernel_is_daily_mean_shifted (m : BranchProModel)
    (p : BranchProPosterior) (hsi : m.serial_interval = p.serial_interval)
    (hnc : m.normalizing_const = p.normalizing_const)
    (I : List ℚ) (t : ℕ) (ht : 2 ≤ t) :
    m.normalised_daily_mean (t - 1) I =
      m.initial_r * p.infectious_individuals I t := by
  unfold BranchProModel.normalised_daily_mean BranchProPosterior.infectious_individuals
  rw [hsi, hnc]
  by_cases h1 : t - 1 > p.serial_interval.length
  · rw [if_pos h1, if_pos (by omega)]
    have harg : t - 1 - p.serial_interval.length = t - p.serial_interval.length - 1 := by
      omega
    rw [harg]
  · rw [if_neg h1]
    by_cases h2 : t > p.serial_interval.length
    · rw [if_pos h2]
      have hteq : t - 1 = p.serial_interval.length := by omega
      have hz : t - p.serial_interval.length - 1 = 0 := by omega
      rw [hteq, hz, negTail_length_self]
    · rw [if_neg h2]

/-- C1 witness: the amended kernel identity instantiated at `t = 3` with the
concrete serial interval `[1, 2]` and incidence array `[5, 7, 11, 13]`. -/
theorem infectious_kernel_is_daily_mean_shifted_witness :
    cexModelC1.serial_interval = cexPosteriorC1.serial_interval ∧
      cexModelC1.normalizing_const = cexPosteriorC1.normalizing_const ∧
      2 ≤ 3 ∧
      cexModelC1.normalised_daily_mean (3 - 1) [5, 7, 11, 13] =
        cexModelC1.initial_r * cexPosteriorC1.infectious_individuals [5, 7, 11, 13] 3 :=
  ⟨rfl, rfl, by norm_num,
    infectious_kernel_is_daily_mean_shifted cexModelC1 cexPosteriorC1 rfl rfl
      [5, 7, 11, 13] 3 (by norm_num)⟩

/-- C2 counterexample: counts `[1, 1, 1, 1]` at times `0..3` with `tau = 1`:
the recorded inference times are `[2, 3]` = `range(min + 1 + tau, max + 1)`,
not the integers from `series_start + tau + 2 = 3` through `series_end = 3`. -/
theorem inference_times_start_cex :
    (cexPosteriorC2.run_inference 1).inference_times = [2, 3] ∧
      ([2, 3] : List ℤ) ≠ [3] := by
  constructor
  · decide
  · decide

/-- C2 amended: for every posterior state and every positive `tau`, the
inference times after `run_inference(tau)` are exactly the integers from
`series_start + tau + 1` through `series_end` inclusive (the first `tau + 1`
time points being reserved as history). -/
theorem inference_times_characterization (p : BranchProPosterior) (tau : ℕ)
    (ht : 1 ≤ tau) (t : ℤ) :
    t ∈ (p.run_inference tau).inference_times ↔
      p.t_min + tau + 1 ≤ t ∧ t ≤ p.t_max := by
  have h : (p.run_inference tau).inference_times =
      intRange (p.t_min + 1 + tau) (p.t_max + 1) := rfl
  rw [h, intRange_mem]
  omega

/-- C2 witness: the amended characterization instantiated on the concrete
series at times `0..3` with `tau = 1` and `t = 2`. -/
theorem inference_times_characterization_witness :
    1 ≤ 1 ∧
      ((2 : ℤ) ∈ (cexPosteriorC2.run_inference 1).inference_times ↔
        cexPosteriorC2.t_min + 1 + 1 ≤ 2 ∧ (2 : ℤ) ≤ cexPosteriorC2.t_max) :=
  ⟨le_refl 1, inference_times_characterization cexPosteriorC2 1 (le_refl 1) 2⟩

theorem infectives_in_tau_zero (p : BranchProPosterior) (imp : List ℚ)
    (himp : ∀ x ∈ imp, x = 0) (s e : ℕ) : p.infectives_in_tau imp s e = 0 := by
  unfold BranchProPosterior.infectives_in_tau
  refine List.sum_eq_zero ?_
  intro x hx
  obtain ⟨u, _, rfl⟩ := List.mem_map.mp hx
  unfold BranchProPosterior.infectious_individuals
  split
  · rw [npDot_zero_left _ _ (fun z hz => himp z (mem_npSlice hz)), zero_div]
  · rw [npDot_zero_left _ _ (fun z hz => himp z (mem_npSlice hz)), zero_div]

/-- C5: for every local posterior state, every `tau` and every identically-zero
imported series, the local+imported engine with `epsilon = 0` produces exactly
the same inference times, shapes, rates and means as the base engine on the
local series alone. -/
theorem locimp_zero_imported_matches_base (p : BranchProPosterior)
    (imp : List ℚ) (himp : ∀ x ∈ imp, x = 0) (tau : ℕ) :
    LocImpBranchProPosterior.run_inference
        { toBranchProPosterior := p, imp_cases_data := imp, epsilon := 0 } tau =
      p.run_inference tau := by
  have hB : ∀ s e : ℕ, p.infectives_in_tau imp s e = 0 :=
    fun s e => infectives_in_tau_zero p imp himp s e
  unfold LocImpBranchProPosterior.run_inference BranchProPosterior.run_inference
  simp only [hB]
  norm_num

/-- C5 witness: the equivalence instantiated on the concrete series
`[1, 1, 1, 1]` at times `0..3`, imported series `[0, 0, 0, 0]` and `tau = 1`. -/
theorem locimp_zero_imported_matches_base_witness :
    (∀ x ∈ ([0, 0, 0, 0] : List ℚ), x = 0) ∧
      locImpC5.run_inference 1 = cexPosteriorC2.run_inference 1 :=
  ⟨by simp, locimp_zero_imported_matches_base cexPosteriorC2 [0, 0, 0, 0] (by simp) 1⟩

theorem run_inference_times_length (p : BranchProPosterior) (tau : ℕ) :
    (p.run_inference tau).inference_times.length = p.cases_data.length - (tau + 1) := by
  have h : (p.run_inference tau).inference_times =
      intRange (p.t_min + 1 + tau) (p.t_max + 1) := rfl
  rw [h, intRange_length, BranchProPosterior.t_max]
  omega

theorem run_inference_shape_length (p : BranchProPosterior) (tau : ℕ) :
    (p.run_inference tau).shape.length = p.cases_data.length - (tau + 1) := by
  simp only [BranchProPosterior.run_inference, BranchProPosterior.t_max,
    List.length_map, List.length_range']
  omega

theorem run_inference_rate_length (p : BranchProPosterior) (tau : ℕ) :
    (p.run_inference tau).rate.length = p.cases_data.length - (tau + 1) := by
  simp only [BranchProPosterior.run_inference, BranchProPosterior.t_max,
    List.length_map, List.length_range']
  omega

/-- C3: on a padded series of span `cases.length` with any positive
`tau ≤ span`, `run_inference(tau)` returns inference times, shapes and rates
all of length `span - tau - 1`, and under the preconditions `alpha > 0`,
`beta > 0`, nonnegative counts and a nonnegative serial interval with positive
sum, every shape and every rate is strictly positive. -/
theorem run_inference_lengths_and_positivity (t0 : ℤ) (cases si : List ℚ)
    (a b : ℚ) (tau : ℕ) (htau1 : 1 ≤ tau) (htau2 : tau ≤ cases.length)
    (ha : 0 < a) (hb : 0 < b) (hc : ∀ x ∈ cases, 0 ≤ x)
    (hs : ∀ x ∈ si, 0 ≤ x) (hsum : 0 < si.sum) :
    ((mkBranchProPosterior t0 cases si a b).run_inference tau).inference_times.length
        = cases.length - tau - 1 ∧
      ((mkBranchProPosterior t0 cases si a b).run_inference tau).shape.length
        = cases.length - tau - 1 ∧
      ((mkBranchProPosterior t0 cases si a b).run_inference tau).rate.length
        = cases.length - tau - 1 ∧
      (∀ s ∈ ((mkBranchProPosterior t0 cases si a b).run_inference tau).shape, 0 < s) ∧
      (∀ r ∈ ((mkBranchProPosterior t0 cases si a b).run_inference tau).rate, 0 < r) := by
  set p := mkBranchProPosterior t0 cases si a b with hp
  have hpc : p.cases_data = cases := rfl
  have hps : p.serial_interval = si.reverse := rfl
  have hpn : p.normalizing_const = si.reverse.sum := rfl
  have hpa : p.alpha = a := rfl
  have hpb : p.beta = b := rfl
  have hs' : ∀ x ∈ p.serial_interval, 0 ≤ x := by
    rw [hps]
    intro x hx
    exact hs x (List.mem_reverse.mp hx)
  have hn' : 0 ≤ p.normalizing_const := by
    rw [hpn, List.sum_reverse]
    exact hsum.le
  refine ⟨?_, ?_, ?_, ?_, ?_⟩
  · rw [run_inference_times_length, hpc]
    omega
  · rw [run_inference_shape_length, hpc]
    omega
  · rw [run_inference_rate_length, hpc]
    omega
  · intro s hss
    have hss' : s ∈ (List.range' (tau + 1 + 1)
        ((p.t_max - p.t_min + 1).toNat - (tau + 1))).map
        (fun time => p.alpha + (npSlice p.cases_data (time - tau - 1) (time + 1 - 1)).sum) :=
      hss
    obtain ⟨time, _, rfl⟩ := List.mem_map.mp hss'
    rw [hpa, hpc]
    refine add_pos_of_pos_of_nonneg ha (List.sum_nonneg ?_)
    intro x hx
    exact hc x (mem_npSlice hx)
  · intro r hrr
    have hrr' : r ∈ (List.range' (tau + 1 + 1)
        ((p.t_max - p.t_min + 1).toNat - (tau + 1))).map
        (fun time => p.beta + p.infectives_in_tau p.cases_data (time - tau) (time + 1)) :=
      hrr
    obtain ⟨time, _, rfl⟩ := List.mem_map.mp hrr'
    rw [hpb]
    refine add_pos_of_pos_of_nonneg hb ?_
    refine infectives_in_tau_nonneg p p.cases_data ?_ hs' hn' _ _
    rw [hpc]
    exact hc

/-- C3 witness: the lengths-and-positivity statement instantiated on counts
`[1, 2, 1]` at times `0..2`, serial interval `[1, 1]`, `alpha = beta = 1`,
`tau = 1`. -/
theorem run_inference_lengths_and_positivity_witness :
    1 ≤ 1 ∧ 1 ≤ ([1, 2, 1] : List ℚ).length ∧ (0 : ℚ) < 1 ∧
      (∀ x ∈ ([1, 2, 1] : List ℚ), 0 ≤ x) ∧
      (∀ x ∈ ([1, 1] : List ℚ), 0 ≤ x) ∧ (0 : ℚ) < ([1, 1] : List ℚ).sum ∧
      ((∀ s ∈ ((mkBranchProPosterior 0 [1, 2, 1] [1, 1] 1 1).run_inference 1).shape, 0 < s) ∧
        (∀ r ∈ ((mkBranchProPosterior 0 [1, 2, 1] [1, 1] 1 1).run_inference 1).rate, 0 < r)) := by
  refine ⟨le_refl 1, by norm_num, one_pos, by norm_num, by norm_num, by norm_num, ?_, ?_⟩
  · exact (run_inference_lengths_and_positivity 0 [1, 2, 1] [1, 1] 1 1 1 (le_refl 1)
      (by norm_num) one_pos one_pos (by norm_num) (by norm_num) (by norm_num)).2.2.2.1
  · exact (run_inference_lengths_and_positivity 0 [1, 2, 1] [1, 1] 1 1 1 (le_refl 1)
      (by norm_num) one_pos one_pos (by norm_num) (by norm_num) (by norm_num)).2.2.2.2

theorem getD_drop (l : List ℚ) (k j : ℕ) :
    (l.drop k).getD j 0 = l.getD (k + j) 0 := by
  simp [List.getD_eq_getElem?_getD, List.getElem?_drop]

theorem getD_take (l : List ℚ) (n j : ℕ) (h : j < n) :
    (l.take n).getD j 0 = l.getD j 0 := by
  simp [List.getD_eq_getElem?_getD, List.getElem?_take, h]

theorem npSlice_getD (l : List ℚ) (a b j : ℕ) (h : a + j < b) :
    (npSlice l a b).getD j 0 = l.getD (a + j) 0 := by
  unfold npSlice
  rw [getD_drop, getD_take _ _ _ h]

theorem npSlice_length (l : List ℚ) (a b : ℕ) :
    (npSlice l a b).length = min b l.length - a := by
  simp [npSlice]

theorem negTail_length (l : List ℚ) (t : ℕ) (ht : t ≠ 0) :
    (negTail l t).length = min t l.length := by
  simp only [negTail, if_neg ht, List.length_drop]
  omega

theorem negTail_getD (l : List ℚ) (t j : ℕ) (ht : t ≠ 0) :
    (negTail l t).getD j 0 = l.getD (l.length - t + j) 0 := by
  simp only [negTail, if_neg ht, getD_drop]

theorem getD_reverse (l : List ℚ) (j : ℕ) (h : j < l.length) :
    l.reverse.getD j 0 = l.getD (l.length - 1 - j) 0 := by
  simp [List.getD_eq_getElem?_getD, List.getElem?_reverse h]

theorem getD_mem (l : List ℚ) (i : ℕ) (h : i < l.length) : l.getD i 0 ∈ l := by
  rw [List.getD_eq_getElem l 0 h]
  exact List.getElem_mem h

theorem infectious_individuals_pos (p : BranchProPosterior) (cases : List ℚ)
    (hc : ∀ x ∈ cases, 0 ≤ x) (hs : ∀ x ∈ p.serial_interval, 0 ≤ x)
    (hn : 0 < p.normalizing_const) (t s : ℕ)
    (ht : 2 ≤ t) (hlen : t - 1 ≤ cases.length)
    (hs1 : 1 ≤ s) (hsL : s ≤ p.serial_interval.length) (hst : s + 1 ≤ t)
    (hrev : 0 < p.serial_interval.getD (p.serial_interval.length - s) 0)
    (hcase : 0 < cases.getD (t - 1 - s) 0) :
    0 < p.infectious_individuals cases t := by
  unfold BranchProPosterior.infectious_individuals
  by_cases h1 : t > p.serial_interval.length
  · rw [if_pos h1]
    refine div_pos ?_ hn
    refine npDot_pos _ _ (fun x hx => hc x (mem_npSlice hx)) hs
      (p.serial_interval.length - s) ?_ ?_ ?_
    · rw [npSlice_length]
      omega
    · omega
    · rw [npSlice_getD _ _ _ _ (by omega)]
      have harg : t - p.serial_interval.length - 1 + (p.serial_interval.length - s) =
          t - 1 - s := by omega
      rw [harg]
      exact mul_pos hcase hrev
  · rw [if_neg h1]
    refine div_pos ?_ hn
    have ht1 : t - 1 ≠ 0 := by omega
    refine npDot_pos _ _ (fun x hx => hc x (mem_npSlice hx))
      (fun x hx => hs x (mem_negTail hx)) (t - 1 - s) ?_ ?_ ?_
    · rw [npSlice_length]
      omega
    · rw [negTail_length _ _ ht1]
      omega
    · rw [npSlice_getD _ _ _ _ (by omega), negTail_getD _ _ _ ht1]
      have h2 : p.serial_interval.length - (t - 1) + (t - 1 - s) =
          p.serial_interval.length - s := by omega
      rw [Nat.zero_add, h2]
      exact mul_pos hcase hrev

/-- C4 counterexample: on the scenario data (`[3,1,4,1,5,9,2,6]` at times
`0..7`, `tau = 2`, `alpha = 1`, `beta = 0.2`) the inference times are
`[3, 4, 5, 6, 7]` (five shape/rate pairs), not `{4, 5, 6, 7}` (four); and for
the admissible serial interval `[0, 0, 0, 0, 1]` the first two rates equal
`0.2` exactly, so "each rate strictly greater than 0.2" also fails. -/
theorem scenario_inference_cex :
    ((posteriorC4 [1]).run_inference 2).inference_times = [3, 4, 5, 6, 7] ∧
      ([3, 4, 5, 6, 7] : List ℤ) ≠ [4, 5, 6, 7] ∧
      ((posteriorC4 [1]).run_inference 2).shape.length = 5 ∧
      (∀ x ∈ siZeroHead, 0 ≤ x) ∧ (0 : ℚ) < siZeroHead.sum ∧
      ((posteriorC4 siZeroHead).run_inference 2).rate =
        [1/5, 1/5, 16/5, 21/5, 41/5] ∧
      ¬ ((1 : ℚ)/5 < 1/5) := by
  refine ⟨by decide, by decide, ?_, by decide, by norm_num [siZeroHead], ?_, by norm_num⟩
  · rw [run_inference_shape_length]
    norm_num [posteriorC4, mkBranchProPosterior, casesC4]
  · have h45 : List.range' 4 (Int.toNat 8 - 3) = [4, 5, 6, 7, 8] := rfl
    have h2 : List.range' 2 3 = [2, 3, 4] := rfl
    have h3 : List.range' 3 3 = [3, 4, 5] := rfl
    have h4 : List.range' 4 3 = [4, 5, 6] := rfl
    have h5 : List.range' 5 3 = [5, 6, 7] := rfl
    have h6 : List.range' 6 3 = [6, 7, 8] := rfl
    norm_num [posteriorC4, mkBranchProPosterior, casesC4, siZeroHead,
      BranchProPosterior.run_inference, BranchProPosterior.t_max,
      BranchProPosterior.infectives_in_tau, BranchProPosterior.infectious_individuals,
      npDot, npSlice, negTail, h45, h2, h3, h4, h5, h6]

/-- C4 amended: on the scenario data with `tau = 2`, `alpha = 1`,
`beta = 0.2` and any nonnegative serial interval carrying positive weight at
one of the first three lags, `run_inference` gives inference times
`{3, 4, 5, 6, 7}` and exactly five shape/rate pairs, each shape being `1` plus
the sum of the 3-wide incidence window ending at its time
(`[7, 11, 16, 17, 18]`), and each rate strictly greater than `0.2`. -/
theorem scenario_inference_amended (si : List ℚ) (hsi : ∀ x ∈ si, 0 ≤ x)
    (hex : ∃ i, i < 3 ∧ i < si.length ∧ 0 < si.getD i 0) :
    ((posteriorC4 si).run_inference 2).inference_times = [3, 4, 5, 6, 7] ∧
      ((posteriorC4 si).run_inference 2).shape = [7, 11, 16, 17, 18] ∧
      ∀ r ∈ ((posteriorC4 si).run_inference 2).rate, 1/5 < r := by
  obtain ⟨i, hi3, hiL, hipos⟩ := hex
  have hserial : (posteriorC4 si).serial_interval = si.reverse := rfl
  have hs' : ∀ x ∈ (posteriorC4 si).serial_interval, 0 ≤ x := by
    rw [hserial]
    intro x hx
    exact hsi x (List.mem_reverse.mp hx)
  have hcpos : ∀ k, k < 8 → 0 < casesC4.getD k 0 := by decide
  have hcnn : ∀ x ∈ casesC4, 0 ≤ x := by decide
  have hnpos : 0 < (posteriorC4 si).normalizing_const := by
    have h : (posteriorC4 si).normalizing_const = si.reverse.sum := rfl
    rw [h, List.sum_reverse]
    exact lt_of_lt_of_le hipos (List.single_le_sum hsi _ (getD_mem si i hiL))
  have htimes : ((posteriorC4 si).run_inference 2).inference_times = intRange 3 8 := rfl
  refine ⟨by rw [htimes]; decide, ?_, ?_⟩
  · have h45 : List.range' 4 (Int.toNat 8 - 3) = [4, 5, 6, 7, 8] := rfl
    norm_num [posteriorC4, mkBranchProPosterior, casesC4, BranchProPosterior.run_inference,
      BranchProPosterior.t_max, npSlice, h45]
  · intro r hr
    simp only [BranchProPosterior.run_inference] at hr
    obtain ⟨time, htime, rfl⟩ := List.mem_map.mp hr
    rw [List.mem_range'_1] at htime
    have htn : ((posteriorC4 si).t_max - (posteriorC4 si).t_min + 1).toNat = 8 := rfl
    rw [htn] at htime
    have htlo : 4 ≤ time := by omega
    have hthi : time < 9 := by omega
    have hbeta : (posteriorC4 si).beta = 1/5 := rfl
    rw [hbeta]
    refine (lt_add_iff_pos_right _).mpr ?_
    have hcases : (posteriorC4 si).cases_data = casesC4 := rfl
    rw [hcases]
    have hkpos : 0 < (posteriorC4 si).infectious_individuals casesC4 time := by
      refine infectious_individuals_pos (posteriorC4 si) casesC4 hcnn hs' hnpos
        time (i + 1) (by omega) ?_ (by omega) ?_ (by omega) ?_ ?_
      · have h8 : casesC4.length = 8 := rfl
        rw [h8]
        omega
      · rw [hserial, List.length_reverse]
        omega
      · rw [hserial, List.length_reverse, getD_reverse si _ (by omega)]
        have harg : si.length - 1 - (si.length - (i + 1)) = i := by omega
        rw [harg]
        exact hipos
      · exact hcpos _ (by omega)
    unfold BranchProPosterior.infectives_in_tau
    refine lt_of_lt_of_le hkpos (List.single_le_sum ?_ _ ?_)
    · intro x hx
      obtain ⟨u, _, rfl⟩ := List.mem_map.mp hx
      exact infectious_individuals_nonneg (posteriorC4 si) casesC4 hcnn hs' hnpos.le u
    · refine List.mem_map_of_mem _ ?_
      rw [List.mem_range'_1]
      omega

/-- C4 witness: the amended scenario statement instantiated with the serial
interval `[1, 2, 3, 2, 1]`. -/
theorem scenario_inference_amended_witness :
    (∀ x ∈ ([1, 2, 3, 2, 1] : List ℚ), 0 ≤ x) ∧
      (∃ i, i < 3 ∧ i < ([1, 2, 3, 2, 1] : List ℚ).length ∧
        0 < ([1, 2, 3, 2, 1] : List ℚ).getD i 0) ∧
      ((posteriorC4 [1, 2, 3, 2, 1]).run_inference 2).inference_times = [3, 4, 5, 6, 7] ∧
      ((posteriorC4 [1, 2, 3, 2, 1]).run_inference 2).shape = [7, 11, 16, 17, 18] ∧
      ∀ r ∈ ((posteriorC4 [1, 2, 3, 2, 1]).run_inference 2).rate, 1/5 < r :=
  ⟨by decide, ⟨0, by decide, by decide, by decide⟩,
    scenario_inference_amended [1, 2, 3, 2, 1] (by decide)
      ⟨0, by decide, by decide, by decide⟩⟩

theorem le_of_mem_max (l : List ℤ) (M t : ℤ) (h : l.max? = some M) (ht : t ∈ l) :
    t ≤ M :=
  (List.max?_le_iff (fun _ _ _ => max_le_iff) h).mp (le_refl M) t ht

theorem incidencesE_succ (m : BranchProModel) (draw : ℕ → ℚ → ℚ) (ic : ℚ)
    (t : ℕ) :
    m.incidencesE draw ic (t + 1) =
      match m.incidencesE draw ic t with
      | Except.error e => Except.error e
      | Except.ok prev =>
          if m.normalised_daily_mean (t + 1) prev < 0 then
            Except.error "lam value too large or lam < 0"
          else
            Except.ok (prev ++ [draw (t + 1) (m.normalised_daily_mean (t + 1) prev)]) :=
  rfl

theorem normalised_daily_mean_nonneg (m : BranchProModel) (incidences : List ℚ)
    (hr : 0 ≤ m.initial_r) (hsi : ∀ x ∈ m.serial_interval, 0 ≤ x)
    (hn : 0 ≤ m.normalizing_const) (hinc : ∀ x ∈ incidences, 0 ≤ x) (t : ℕ) :
    0 ≤ m.normalised_daily_mean t incidences := by
  unfold BranchProModel.normalised_daily_mean
  split
  · exact mul_nonneg hr (div_nonneg
      (npDot_nonneg _ _ (fun x hx => hinc x (mem_npSlice hx)) hsi) hn)
  · exact mul_nonneg hr (div_nonneg
      (npDot_nonneg _ _ (fun x hx => hinc x (mem_npSlice hx))
        (fun x hx => hsi x (mem_negTail hx))) hn)

theorem incidencesE_ok (m : BranchProModel) (draw : ℕ → ℚ → ℚ)
    (initial_cond : ℚ) (hr : 0 ≤ m.initial_r)
    (hsi : ∀ x ∈ m.serial_interval, 0 ≤ x) (hn : 0 ≤ m.normalizing_const)
    (hic : 0 ≤ initial_cond) (hdraw : ∀ t q, 0 ≤ draw t q) (T : ℕ) :
    ∃ inc, m.incidencesE draw initial_cond T = Except.ok inc ∧
      ∀ x ∈ inc, 0 ≤ x := by
  induction T with
  | zero =>
      refine ⟨[initial_cond], rfl, ?_⟩
      intro x hx
      rw [List.mem_singleton] at hx
      rw [hx]
      exact hic
  | succ t ih =>
      obtain ⟨prev, hprev, hnn⟩ := ih
      have hmean : 0 ≤ m.normalised_daily_mean (t + 1) prev :=
        normalised_daily_mean_nonneg m prev hr hsi hn hnn (t + 1)
      refine ⟨prev ++ [draw (t + 1) (m.normalised_daily_mean (t + 1) prev)], ?_, ?_⟩
      · rw [incidencesE_succ, hprev]
        simp only [if_neg (not_lt.mpr hmean)]
      · intro x hx
        rw [List.mem_append] at hx
        cases hx with
        | inl h => exact hnn x h
        | inr h =>
            rw [List.mem_singleton] at h
            rw [h]
            exact hdraw _ _

/-- C8 counterexample: `simulate` succeeds (returning `[0, 0]` under the
all-zero draw oracle) on the times list `[2, 1, 2, -3]`, which is unordered,
has a duplicate and contains a negative value, so the simulator does not fail
on invalid times sequences. -/
theorem simulate_accepts_invalid_times_cex :
    modelC8.simulateE drawZero 1 badTimes = Except.ok [0, 0] ∧
      ¬ badTimes.Chain' (· < ·) := by
  have hm1 : modelC8.normalised_daily_mean 1 [1] = 1 := by
    norm_num [modelC8, BranchProModel.ofData, BranchProModel.normalised_daily_mean,
      npDot, npSlice, negTail]
  have hm2 : modelC8.normalised_daily_mean 2 [1, 0] = 0 := by
    norm_num [modelC8, BranchProModel.ofData, BranchProModel.normalised_daily_mean,
      npDot, npSlice, negTail]
  have h0 : modelC8.incidencesE drawZero 1 0 = Except.ok [1] := rfl
  have h1 : modelC8.incidencesE drawZero 1 1 = Except.ok [1, 0] := by
    rw [incidencesE_succ, h0]
    simp only [if_neg (by rw [hm1]; norm_num : ¬ modelC8.normalised_daily_mean 1 [1] < 0)]
    rfl
  have h2 : modelC8.incidencesE drawZero 1 2 = Except.ok [1, 0, 0] := by
    rw [incidencesE_succ, h1]
    simp only [if_neg (by rw [hm2]; norm_num : ¬ modelC8.normalised_daily_mean 2 [1, 0] < 0)]
    rfl
  constructor
  · have hmax : badTimes.max? = some 2 := rfl
    have ht2 : Int.toNat 2 = 2 := rfl
    unfold BranchProModel.simulateE
    rw [hmax]
    simp only [if_neg (show ¬ (2 : ℤ) < 0 by decide), ht2, h2]
    rfl
  · simp [badTimes]

/-- C8 amended: the model constructor fails exactly when the serial interval
sums to `≤ 0`; `simulate` does not validate `times`: when the daily Poisson
means stay nonnegative (nonnegative reproduction number, serial interval,
normalizing constant, initial count and draws) and some requested time is
nonnegative, it returns normally even for unordered times lists with
duplicates or negative entries; it fails when `times` is empty, when every
requested time is negative, or when a computed daily mean is negative
(`np.random.poisson` raises for `lam < 0`, e.g. for `initial_r = -1`,
serial interval `[1]`, initial count `1`, times `[1]`). -/
theorem create_and_simulate_failure_modes (r : ℚ) (si : List ℚ)
    (m : BranchProModel) (draw : ℕ → ℚ → ℚ) (parameters : ℚ) (times : List ℤ)
    (hr : 0 ≤ m.initial_r) (hsi : ∀ x ∈ m.serial_interval, 0 ≤ x)
    (hn : 0 ≤ m.normalizing_const) (hp : 0 ≤ parameters)
    (hdraw : ∀ t q, 0 ≤ draw t q) (hnn : ∃ t ∈ times, 0 ≤ t) :
    ((BranchProModel.create r si).isOk ↔ 0 < si.sum) ∧
      (m.simulateE draw parameters times).isOk = true ∧
      (BranchProModel.ofData (-1) [1]).simulateE drawZero 1 [1] =
        Except.error "lam value too large or lam < 0" := by
  refine ⟨?_, ?_, ?_⟩
  · by_cases h : si.sum ≤ 0
    · rw [BranchProModel.create, if_pos h]
      exact iff_of_false (by simp [Except.isOk, Except.toBool]) (not_lt.mpr h)
    · rw [BranchProModel.create, if_neg h]
      exact iff_of_true rfl (lt_of_not_le h)
  · obtain ⟨t, ht, ht0⟩ := hnn
    unfold BranchProModel.simulateE
    cases hM : times.max? with
    | none =>
        rw [List.max?_eq_none_iff] at hM
        rw [hM] at ht
        exact absurd ht (List.not_mem_nil t)
    | some M =>
        have hM0 : ¬ M < 0 := not_lt.mpr (le_trans ht0 (le_of_mem_max times M t hM ht))
        obtain ⟨inc, hinc, _⟩ :=
          incidencesE_ok m draw parameters hr hsi hn hp hdraw M.toNat
        simp only [if_neg hM0, hinc]
        rfl
  · have hmean : (BranchProModel.ofData (-1) [1]).normalised_daily_mean 1 [1] = -1 := by
      norm_num [BranchProModel.ofData, BranchProModel.normalised_daily_mean,
        npDot, npSlice, negTail]
    have h0 : (BranchProModel.ofData (-1) [1]).incidencesE drawZero 1 0 =
        Except.ok [1] := rfl
    have h1 : (BranchProModel.ofData (-1) [1]).incidencesE drawZero 1 1 =
        Except.error "lam value too large or lam < 0" := by
      rw [incidencesE_succ, h0]
      simp only [if_pos (by rw [hmean]; norm_num :
        (BranchProModel.ofData (-1) [1]).normalised_daily_mean 1 [1] < 0)]
    have hmax : ([1] : List ℤ).max? = some 1 := rfl
    have ht1 : Int.toNat 1 = 1 := rfl
    unfold BranchProModel.simulateE
    rw [hmax]
    simp only [if_neg (show ¬ (1 : ℤ) < 0 by decide), ht1, h1]

/-- C8 witness: the amended failure-mode statement instantiated with serial
interval `[1]`, reproduction number `1`, the all-zero draw oracle and the
invalid times list `[2, 1, 2, -3]`. -/
theorem create_and_simulate_failure_modes_witness :
    (0 ≤ modelC8.initial_r) ∧ (∀ x ∈ modelC8.serial_interval, 0 ≤ x) ∧
      (0 ≤ modelC8.normalizing_const) ∧ (0 ≤ (1 : ℚ)) ∧
      (∀ t q, 0 ≤ drawZero t q) ∧ (∃ t ∈ badTimes, (0 : ℤ) ≤ t) ∧
      (((BranchProModel.create 1 [1]).isOk ↔ 0 < ([1] : List ℚ).sum) ∧
        (modelC8.simulateE drawZero 1 badTimes).isOk = true ∧
        (BranchProModel.ofData (-1) [1]).simulateE drawZero 1 [1] =
          Except.error "lam value too large or lam < 0") :=
  ⟨by decide, by decide, by norm_num [modelC8, BranchProModel.ofData],
    by norm_num, fun _ _ => le_refl 0, ⟨2, by decide, by decide⟩,
    create_and_simulate_failure_modes 1 [1] modelC8 drawZero 1 badTimes
      (by decide) (by decide) (by norm_num [modelC8, BranchProModel.ofData])
      (by norm_num) (fun _ _ => le_refl 0) ⟨2, by decide, by decide⟩⟩

theorem gammaCDFReal_neg {a r : ℝ} (ha : 0 < a) (hr : 0 < r) {x : ℝ} (hx : x < 0) :
    ProbabilityTheory.gammaCDFReal a r x = 0 := by
  rw [ProbabilityTheory.gammaCDFReal_eq_lintegral ha hr]
  have hle : (∫⁻ y in Set.Iic x, ProbabilityTheory.gammaPDF a r y) ≤
      ∫⁻ y in Set.Iio 0, ProbabilityTheory.gammaPDF a r y :=
    MeasureTheory.lintegral_mono_set (Set.Iic_subset_Iio.mpr hx)
  rw [ProbabilityTheory.lintegral_gammaPDF_of_nonpos le_rfl] at hle
  have h0 : (∫⁻ y in Set.Iic x, ProbabilityTheory.gammaPDF a r y) = 0 :=
    le_antisymm hle (zero_le _)
  rw [h0]
  simp

theorem gammaQuantile_set_bddBelow {a r q : ℝ} (ha : 0 < a) (hr : 0 < r)
    (hq : 0 < q) :
    BddBelow {x : ℝ | q ≤ ProbabilityTheory.gammaCDFReal a r x} := by
  refine ⟨0, ?_⟩
  intro x hx
  by_contra hneg
  push_neg at hneg
  rw [Set.mem_setOf_eq, gammaCDFReal_neg ha hr hneg] at hx
  exact absurd hx (not_le.mpr hq)

theorem gammaQuantile_set_nonempty (a r : ℝ) {q : ℝ} (hq : q < 1) :
    ∃ x : ℝ, q ≤ ProbabilityTheory.gammaCDFReal a r x := by
  have h := ProbabilityTheory.tendsto_cdf_atTop (ProbabilityTheory.gammaMeasure a r)
  have hev := h.eventually (eventually_ge_nhds hq)
  obtain ⟨x, hx⟩ := hev.exists
  exact ⟨x, hx⟩

theorem gammaQuantile_mono {a r : ℝ} (ha : 0 < a) (hr : 0 < r) {q1 q2 : ℝ}
    (h0 : 0 < q1) (h12 : q1 ≤ q2) (h2 : q2 < 1) :
    gammaQuantile a r q1 ≤ gammaQuantile a r q2 := by
  unfold gammaQuantile
  refine csInf_le_csInf (gammaQuantile_set_bddBelow ha hr h0) ?_ ?_
  · obtain ⟨x, hx⟩ := gammaQuantile_set_nonempty a r h2
    exact ⟨x, hx⟩
  · intro x hx
    rw [Set.mem_setOf_eq] at *
    exact le_trans h12 hx

theorem get_intervals_forall2_aux (p₁ p₂ : ℝ) (h0 : 0 < p₁) (h12 : p₁ ≤ p₂)
    (h2 : p₂ < 1) (me : List ℚ) (ts : List ℤ) :
    ∀ (sh ra : List ℚ), (∀ a ∈ sh, 0 < a) → (∀ b ∈ ra, 0 < b) →
      List.Forall₂
        (fun row₁ row₂ : ℤ × ℝ × ℝ × ℝ =>
          row₁.1 = row₂.1 ∧ row₁.2.2.1 ≤ row₁.2.2.2 ∧
            row₁.2.2.2 - row₁.2.2.1 ≤ row₂.2.2.2 - row₂.2.2.1)
        ((InferenceResult.mk ts sh ra me).get_intervals p₁)
        ((InferenceResult.mk ts sh ra me).get_intervals p₂) := by
  induction ts with
  | nil =>
      intro sh ra _ _
      simp only [InferenceResult.get_intervals, List.zipWith_nil_left]
      exact List.Forall₂.nil
  | cons t ts ih =>
      intro sh ra hs hr
      cases sh with
      | nil =>
          simp only [InferenceResult.get_intervals, List.zip_nil_left,
            List.zipWith_nil_right]
          exact List.Forall₂.nil
      | cons a sh =>
          cases ra with
          | nil =>
              simp only [InferenceResult.get_intervals, List.zip_nil_right,
                List.zipWith_nil_right]
              exact List.Forall₂.nil
          | cons b ra =>
              have hA : (0 : ℝ) < (a : ℚ) := by
                exact_mod_cast hs a (by simp)
              have hB : (0 : ℝ) < (b : ℚ) := by
                exact_mod_cast hr b (by simp)
              simp only [InferenceResult.get_intervals, List.zip_cons_cons,
                List.zipWith_cons_cons]
              refine List.Forall₂.cons ⟨rfl, ?_, ?_⟩ ?_
              · exact gammaQuantile_mono hA hB (by linarith) (by linarith) (by linarith)
              · have hU : gammaQuantile (a : ℚ) (b : ℚ) ((1 + p₁) / 2) ≤
                    gammaQuantile (a : ℚ) (b : ℚ) ((1 + p₂) / 2) :=
                  gammaQuantile_mono hA hB (by linarith) (by linarith) (by linarith)
                have hL : gammaQuantile (a : ℚ) (b : ℚ) ((1 - p₂) / 2) ≤
                    gammaQuantile (a : ℚ) (b : ℚ) ((1 - p₁) / 2) :=
                  gammaQuantile_mono hA hB (by linarith) (by linarith) (by linarith)
                linarith
              · have htail := ih sh ra (fun z hz => hs z (by simp [hz]))
                  (fun z hz => hr z (by simp [hz]))
                simpa only [InferenceResult.get_intervals] using htail

/-- C6 amended: after `run_inference` with positive shapes and rates, the rows
of `get_intervals` at the same time point satisfy `lower ≤ upper`, and the
interval width `upper - lower` is non-decreasing in the central probability;
the posterior mean, however, need not lie inside the interval. -/
theorem get_intervals_ordered_and_width_mono (res : InferenceResult)
    (hs : ∀ a ∈ res.shape, 0 < a) (hr : ∀ b ∈ res.rate, 0 < b)
    (p₁ p₂ : ℝ) (h0 : 0 < p₁) (h12 : p₁ ≤ p₂) (h2 : p₂ < 1) :
    List.Forall₂
      (fun row₁ row₂ : ℤ × ℝ × ℝ × ℝ =>
        row₁.1 = row₂.1 ∧ row₁.2.2.1 ≤ row₁.2.2.2 ∧
          row₁.2.2.2 - row₁.2.2.1 ≤ row₂.2.2.2 - row₂.2.2.1)
      (res.get_intervals p₁) (res.get_intervals p₂) := by
  obtain ⟨ts, sh, ra, me⟩ := res
  exact get_intervals_forall2_aux p₁ p₂ h0 h12 h2 me ts sh ra hs hr

theorem posteriorC6_run_fields :
    (posteriorC6.run_inference 1).inference_times = [2] ∧
      (posteriorC6.run_inference 1).shape = [1] ∧
      (posteriorC6.run_inference 1).rate = [1] := by
  have h31 : List.range' 3 (Int.toNat 3 - 2) = [3] := rfl
  have h22 : List.range' 2 2 = [2, 3] := rfl
  refine ⟨by decide, ?_, ?_⟩
  · norm_num [posteriorC6, mkBranchProPosterior, BranchProPosterior.run_inference,
      BranchProPosterior.t_max, npSlice, h31]
  · norm_num [posteriorC6, mkBranchProPosterior, BranchProPosterior.run_inference,
      BranchProPosterior.t_max, BranchProPosterior.infectives_in_tau,
      BranchProPosterior.infectious_individuals, npDot, npSlice, negTail, h31, h22]

theorem gammaQuantile_one_one_le_log :
    gammaQuantile 1 1 (11/20) ≤ Real.log (20/9) := by
  unfold gammaQuantile
  refine csInf_le (gammaQuantile_set_bddBelow one_pos one_pos (by norm_num)) ?_
  rw [Set.mem_setOf_eq]
  have he : ProbabilityTheory.gammaCDFReal 1 1 = ProbabilityTheory.exponentialCDFReal 1 := rfl
  rw [he, ProbabilityTheory.exponentialCDFReal_eq one_pos,
    if_pos (Real.log_nonneg (by norm_num)), one_mul, Real.exp_neg,
    Real.exp_log (by norm_num)]
  norm_num

theorem log_twenty_ninths_lt_one : Real.log (20/9) < 1 := by
  rw [Real.log_lt_iff_lt_exp (by norm_num)]
  calc (20 : ℝ)/9 < 2.7182818283 := by norm_num
  _ < Real.exp 1 := Real.exp_one_gt_d9

/-- C6 counterexample: at `p = 1/10 ∈ (0, 1)`, the single `get_intervals` row
of the Gamma(1, 1) posterior produced by `run_inference` on all-zero counts has
mean `1` strictly above its upper bound (which is at most `log(20/9) < 1`), so
`lower ≤ mean ≤ upper` fails. -/
theorem get_intervals_mean_outside_cex :
    (0 : ℝ) < 1/10 ∧ (1/10 : ℝ) < 1 ∧
      ∃ row ∈ (posteriorC6.run_inference 1).get_intervals (1/10),
        row.2.2.2 < row.2.1 := by
  obtain ⟨h1, h2, h3⟩ := posteriorC6_run_fields
  refine ⟨by norm_num, by norm_num, ?_⟩
  refine ⟨((2 : ℤ), ((1 : ℚ) : ℝ) / ((1 : ℚ) : ℝ),
    gammaQuantile ((1 : ℚ) : ℝ) ((1 : ℚ) : ℝ) ((1 - 1/10) / 2),
    gammaQuantile ((1 : ℚ) : ℝ) ((1 : ℚ) : ℝ) ((1 + 1/10) / 2)), ?_, ?_⟩
  · rw [InferenceResult.get_intervals, h1, h2, h3]
    simp
  · have hcast : ((1 : ℚ) : ℝ) = 1 := by norm_num
    rw [hcast]
    have hq : ((1 : ℝ) + 1/10) / 2 = 11/20 := by norm_num
    rw [hq]
    have := lt_of_le_of_lt gammaQuantile_one_one_le_log log_twenty_ninths_lt_one
    simpa using this

/-- C6 witness: the ordered-bounds and width-monotonicity statement applied to
the Gamma(1, 1) posterior row at `p₁ = 1/4 ≤ p₂ = 1/2`. -/
theorem get_intervals_ordered_and_width_mono_witness :
    (∀ a ∈ (posteriorC6.run_inference 1).shape, 0 < a) ∧
      (∀ b ∈ (posteriorC6.run_inference 1).rate, 0 < b) ∧
      (0 : ℝ) < 1/4 ∧ (1/4 : ℝ) ≤ 1/2 ∧ (1/2 : ℝ) < 1 ∧
      List.Forall₂
        (fun row₁ row₂ : ℤ × ℝ × ℝ × ℝ =>
          row₁.1 = row₂.1 ∧ row₁.2.2.1 ≤ row₁.2.2.2 ∧
            row₁.2.2.2 - row₁.2.2.1 ≤ row₂.2.2.2 - row₂.2.2.1)
        ((posteriorC6.run_inference 1).get_intervals (1/4))
        ((posteriorC6.run_inference 1).get_intervals (1/2)) := by
  obtain ⟨h1, h2, h3⟩ := posteriorC6_run_fields
  have hs : ∀ a ∈ (posteriorC6.run_inference 1).shape, 0 < a := by
    rw [h2]
    decide
  have hr : ∀ b ∈ (posteriorC6.run_inference 1).rate, 0 < b := by
    rw [h3]
    decide
  exact ⟨hs, hr, by norm_num, by norm_num, by norm_num,
    get_intervals_ordered_and_width_mono _ hs hr (1/4) (1/2)
      (by norm_num) (by norm_num) (by norm_num)⟩
